import Mathlib

/-!
Verification of the thread-pool Sudoku validator (`src/sudoku.c`,
`src/threadpool.h`).

Part 1 embeds the pure board validator `validate_board_internal`
(sudoku.c lines 85-146).  A board is modelled as a function from
(row, column) coordinates to the C `int` stored there; the validator
scans rows, then columns, then 3x3 blocks, returning on the first
fault with the exact `snprintf` message the C code produces (the
128-byte buffer is never exceeded by these messages, so `snprintf`
never truncates).
-/

/-- A 9x9 C `int` board: `board r c` is `board[r][c]`.  Only indices
below 9 are ever read by the validator. -/
def Board : Type := Nat → Nat → Int

/-- Message of sudoku.c lines 92 and 109:
`"Invalid number %d at row %d col %d"` with 1-based coordinates. -/
def invalidNumMsg (v : Int) (r c : Nat) : String :=
  "Invalid number " ++ toString v ++ " at row " ++ toString (r+1) ++
    " col " ++ toString (c+1)

/-- Message of sudoku.c line 96: `"Duplicate %d in row %d"`. -/
def rowDupMsg (v : Int) (r _c : Nat) : String :=
  "Duplicate " ++ toString v ++ " in row " ++ toString (r+1)

/-- Message of sudoku.c line 113: `"Duplicate %d in column %d"`. -/
def colDupMsg (v : Int) (_r c : Nat) : String :=
  "Duplicate " ++ toString v ++ " in column " ++ toString (c+1)

/-- Message of sudoku.c line 129:
`"Invalid number %d in 3x3 block %d at row %d col %d"`; `b` is the
0-based block index (`idx` in the C code). -/
def blockInvalidMsg (b : Nat) (v : Int) (r c : Nat) : String :=
  "Invalid number " ++ toString v ++ " in 3x3 block " ++ toString (b+1) ++
    " at row " ++ toString (r+1) ++ " col " ++ toString (c+1)

/-- Message of sudoku.c line 133:
`"Duplicate %d in 3x3 block %d (top-left row %d col %d)"`; the
top-left corner is `(br*3, bc*3)` where `br = b / 3`, `bc = b % 3`. -/
def blockDupMsg (b : Nat) (v : Int) (_r _c : Nat) : String :=
  "Duplicate " ++ toString v ++ " in 3x3 block " ++ toString (b+1) ++
    " (top-left row " ++ toString (b / 3 * 3 + 1) ++ " col " ++
    toString (b % 3 * 3 + 1) ++ ")"

/-- One group scan of `validate_board_internal`: walk the cells of a
row/column/block in order with a `seen` set (the C `int seen[9]`
occurrence array, modelled as its characteristic function on values);
`v <= 0 || v > 9` reports an invalid number, a value already seen
reports a duplicate, otherwise the value is recorded and the scan
continues. -/
def scanGo (board : Board) (invMsg dupMsg : Int → Nat → Nat → String) :
    List (Nat × Nat) → (Int → Bool) → Option String
  | [], _ => none
  | p :: rest, seen =>
    let v := board p.1 p.2
    if v ≤ 0 ∨ 9 < v then some (invMsg v p.1 p.2)
    else if seen v then some (dupMsg v p.1 p.2)
    else scanGo board invMsg dupMsg rest (fun x => if x = v then true else seen x)

/-- Cells of row `r`, left to right (sudoku.c line 89). -/
def rowCells (r : Nat) : List (Nat × Nat) :=
  (List.range 9).map (fun c => (r, c))

/-- Cells of column `c`, top to bottom (sudoku.c line 106). -/
def colCells (c : Nat) : List (Nat × Nat) :=
  (List.range 9).map (fun r => (r, c))

/-- Cells of block `b` (0-based, row-major: `b = br*3 + bc`), scanned
in row-major order (sudoku.c lines 125-126). -/
def blockCells (b : Nat) : List (Nat × Nat) :=
  ((List.range 3).map (fun i =>
    (List.range 3).map (fun j => (b / 3 * 3 + i, b % 3 * 3 + j)))).flatten

/-- The all-clear `seen` array a scan starts from (`int seen[9] = {0}`). -/
def emptySeen : Int → Bool := fun _ => false

/-- The row check for row `r` (sudoku.c lines 87-101): `none` when the
row passes, `some msg` at the first fault. -/
def rowScan (board : Board) (r : Nat) : Option String :=
  scanGo board invalidNumMsg rowDupMsg (rowCells r) emptySeen

/-- The column check for column `c` (sudoku.c lines 104-118). -/
def colScan (board : Board) (c : Nat) : Option String :=
  scanGo board invalidNumMsg colDupMsg (colCells c) emptySeen

/-- The block check for block `b` (sudoku.c lines 122-140). -/
def blockScan (board : Board) (b : Nat) : Option String :=
  scanGo board (blockInvalidMsg b) (blockDupMsg b) (blockCells b) emptySeen

/-- First `some` in a list of scan outcomes: the first fault of a
sequence of checks run in order. -/
def firstMsg : List (Option String) → Option String
  | [] => none
  | some m :: _ => some m
  | none :: rest => firstMsg rest

/-- `validate_board_internal` (sudoku.c lines 85-146): runs the nine
row checks, then the nine column checks, then the nine block checks,
returning `false` with the first fault's message, or `(true, "OK")`
when every check passes. -/
def validate_board_internal (board : Board) : Bool × String :=
  match firstMsg ((List.range 9).map (rowScan board)) with
  | some m => (false, m)
  | none =>
    match firstMsg ((List.range 9).map (colScan board)) with
    | some m => (false, m)
    | none =>
      match firstMsg ((List.range 9).map (blockScan board)) with
      | some m => (false, m)
      | none => (true, "OK")

/-- Build a board from a row-major list of rows; unspecified cells
read 0 (out of range, like uninitialised C memory would typically
fault). -/
def boardOfRows (rows : List (List Int)) : Board :=
  fun r c => ((rows.getD r []).getD c 0)

/-- The canonical solved grid from the spec (section 8, row 1 =
`5 3 4 6 7 8 9 1 2`). -/
def solvedBoard : Board :=
  boardOfRows
    [[5, 3, 4, 6, 7, 8, 9, 1, 2],
     [6, 7, 2, 1, 9, 5, 3, 4, 8],
     [1, 9, 8, 3, 4, 2, 5, 6, 7],
     [8, 5, 9, 7, 6, 1, 4, 2, 3],
     [4, 2, 6, 8, 5, 3, 7, 9, 1],
     [7, 1, 3, 9, 2, 4, 8, 5, 6],
     [9, 6, 1, 5, 3, 7, 2, 8, 4],
     [2, 8, 7, 4, 1, 9, 6, 3, 5],
     [3, 4, 5, 2, 8, 6, 1, 7, 9]]

/-!
Characterisation of one group scan.  `cellVals` is the list of values a
scan reads, in scan order.
-/
/-- Values read by a scan over `cells`, in order. -/
def cellVals (board : Board) (cells : List (Nat × Nat)) : List Int :=
  cells.map (fun p => board p.1 p.2)

/-!
"Contains the values 1 through 9 each exactly once", and the
pigeonhole argument connecting it to the scan's in-range + no-duplicate
check.
-/
/-- The nine Sudoku values. -/
def oneToNine : List Int := [1, 2, 3, 4, 5, 6, 7, 8, 9]

/-- A group of cells "contains the values 1 through 9 each exactly
once": every value from 1 to 9 occurs exactly once in the list of
values read from the group. -/
def groupOk (vals : List Int) : Prop := ∀ k ∈ oneToNine, vals.count k = 1

instance groupOk_decidable (vals : List Int) : Decidable (groupOk vals) :=
  inferInstanceAs (Decidable (∀ k ∈ oneToNine, vals.count k = 1))

/-- Values of row `r` in scan order. -/
def rowVals (board : Board) (r : Nat) : List Int := cellVals board (rowCells r)

/-- Values of column `c` in scan order. -/
def colVals (board : Board) (c : Nat) : List Int := cellVals board (colCells c)

/-- Values of block `b` in scan order. -/
def blockVals (board : Board) (b : Nat) : List Int := cellVals board (blockCells b)

/-!
Spec-side description of the validator (for the refinement claim):
the first violation in a fixed deterministic order.  A cell at
position `i` of a group violates the group when its value lies outside
`[1, 9]` or repeats the value of an earlier cell of the same group;
the reported fault is the earliest violating position of the earliest
failing group, groups ordered rows 0..8, then columns 0..8, then
blocks 0..8 (row-major).
-/
/-- Spec-side violation test: position `i` of the group `cells`
(with `acc` the values deemed already present) is a violation when its
value is out of `[1, 9]` or occurs among `acc` or the earlier values of
the group. -/
def specFault (board : Board) (cells : List (Nat × Nat)) (acc : List Int)
    (i : Nat) : Bool :=
  let p := cells.getD i (0, 0)
  let v := board p.1 p.2
  decide (v ≤ 0 ∨ 9 < v) || decide (v ∈ acc ++ cellVals board (cells.take i))

/-- The message reported for a violation at position `i` of a group:
an out-of-range value is reported by `inv`, a repeated value by `dup`,
both at the cell's coordinates. -/
def specMsgAt (board : Board) (inv dup : Int → Nat → Nat → String)
    (cells : List (Nat × Nat)) (i : Nat) : String :=
  let p := cells.getD i (0, 0)
  let v := board p.1 p.2
  if v ≤ 0 ∨ 9 < v then inv v p.1 p.2 else dup v p.1 p.2

/-- Spec-side group check: the message of the earliest violating
position of the group, if any. -/
def specScan (board : Board) (inv dup : Int → Nat → Nat → String)
    (cells : List (Nat × Nat)) (acc : List Int) : Option String :=
  ((List.range cells.length).find? (specFault board cells acc)).map
    (specMsgAt board inv dup cells)

/-- The spec's description of the validator (section 4.1): run the
complete row scan (rows in index order, cells left to right), then the
complete column scan (columns in index order, cells top to bottom),
then the block scan (blocks in row-major index order, cells row-major
within a block); report the earliest violating position of the
earliest failing group, the reason naming the offending value and the
1-based row / column / block index (out-of-range values via the
"Invalid number" messages, repeated values via the "Duplicate"
messages); `(true, "OK")` when no group has a violation. -/
def spec_validate (board : Board) : Bool × String :=
  match firstMsg ((List.range 9).map
      (fun r => specScan board invalidNumMsg rowDupMsg (rowCells r) [])) with
  | some m => (false, m)
  | none =>
    match firstMsg ((List.range 9).map
        (fun c => specScan board invalidNumMsg colDupMsg (colCells c) [])) with
    | some m => (false, m)
    | none =>
      match firstMsg ((List.range 9).map
          (fun b => specScan board (blockInvalidMsg b) (blockDupMsg b)
            (blockCells b) [])) with
      | some m => (false, m)
      | none => (true, "OK")

/-- Every row 1..9: rows pass, every column is constant. -/
def stripeBoard : Board := fun _ c => (c : Int) + 1

/-- The canonical solved board with a zero written into cell (0,0). -/
def zeroBoard : Board := fun r c => if r = 0 ∧ c = 0 then 0 else solvedBoard r c

/-!
Claim C4: swapping two cells inside one row of a solved board.  The
row itself stays a permutation of 1..9, so the row scan still passes;
the duplicates appear in the two affected columns and the validator
reports a column duplicate, not a row duplicate.
-/
/-- The board obtained by exchanging the contents of cells `(r, c1)`
and `(r, c2)` of `board`. -/
def swapCells (board : Board) (r c1 c2 : Nat) : Board := fun i j =>
  if i = r ∧ j = c1 then board r c2
  else if i = r ∧ j = c2 then board r c1
  else board i j

/-- Rows and columns each contain 1..9 exactly once, but every block
holds duplicates (the classic shifted-rows Latin square). -/
def shiftBoard : Board := fun r c => (((r + c) % 9 : Nat) : Int) + 1

/-!
Part 2: the task queue (sudoku.c lines 18-81).  The heap of `malloc`ed
nodes is modelled as a partial map from addresses to nodes, pointers
as optional addresses (`none` is C `NULL`), and task pointers as
`Option Nat` (`none` is the NULL sentinel, `some id` a pointer to a
task).  The mutex and condition variable serialise access; under that
serialisation each queue operation is one atomic state transition, the
blocked `pthread_cond_wait` of an empty dequeue being "no transition".
-/
/-- `struct task_node` (sudoku.c lines 18-21). -/
structure task_node_t where
  task : Option Nat
  next : Option Nat
deriving DecidableEq

/-- `task_queue_t` (sudoku.c lines 24-29): the head and tail pointers
(the pthread primitives carry no queue-content state). -/
structure task_queue_t where
  head : Option Nat
  tail : Option Nat
deriving DecidableEq

/-- Queue program state: the queue struct, the allocated nodes, and
the allocator's next fresh address. -/
structure QState where
  queue : task_queue_t
  heap : Nat → Option task_node_t
  nextAddr : Nat

/-- `queue_init` (sudoku.c lines 39-43): `head = tail = NULL`. -/
def queue_init : QState :=
  { queue := { head := none, tail := none }, heap := fun _ => none, nextAddr := 0 }

/-- `enqueue_task` (sudoku.c lines 51-66): allocate a fresh node
holding `task` with `next = NULL`; if `tail == NULL` point head and
tail at it, else set `tail->next` to it and advance `tail`. -/
def enqueue_task (s : QState) (task : Option Nat) : QState :=
  let a := s.nextAddr
  let heap1 := fun x => if x = a then some { task := task, next := none } else s.heap x
  match s.queue.tail with
  | none =>
    { queue := { head := some a, tail := some a }, heap := heap1, nextAddr := a + 1 }
  | some ta =>
    { queue := { head := s.queue.head, tail := some a },
      heap := fun x =>
        if x = ta then (heap1 ta).map (fun n => { n with next := some a })
        else heap1 x,
      nextAddr := a + 1 }

/-- `dequeue_task` (sudoku.c lines 68-81): on a non-empty queue unlink
the head node, reset `tail` to NULL if the queue became empty, free
the node and return its task pointer; `none` models the blocked
`pthread_cond_wait` (no transition until someone enqueues). -/
def dequeue_task (s : QState) : Option (Option Nat × QState) :=
  match s.queue.head with
  | none => none
  | some h =>
    match s.heap h with
    | none => none
    | some node =>
      let tl := if node.next = none then none else s.queue.tail
      some (node.task,
        { queue := { head := node.next, tail := tl },
          heap := fun x => if x = h then none else s.heap x,
          nextAddr := s.nextAddr })

/-- `NodeChain heap p l`: following `next` pointers from `p` reaches
exactly the (address, task) pairs `l`, ending at NULL. -/
inductive NodeChain (heap : Nat → Option task_node_t) :
    Option Nat → List (Nat × Option Nat) → Prop
  | nil : NodeChain heap none []
  | cons (a : Nat) (n : task_node_t) (l : List (Nat × Option Nat)) :
      heap a = some n → NodeChain heap n.next l →
      NodeChain heap (some a) ((a, n.task) :: l)

/-- Queue shape invariant: some chain `l` runs from `head` to NULL,
`tail` points at its last node (NULL for the empty chain), the chain's
addresses are distinct, and all of them are below the allocator
cursor. -/
def QInv (s : QState) : Prop :=
  ∃ l, NodeChain s.heap s.queue.head l ∧
    s.queue.tail = (l.map Prod.fst).getLast? ∧
    (l.map Prod.fst).Nodup ∧
    ∀ a ∈ l.map Prod.fst, a < s.nextAddr

/-- Fuel-bounded walk of the chain from `p` (executable counterpart of
`NodeChain`; `nextAddr` always suffices as fuel under `QInv`). -/
def chainFrom (heap : Nat → Option task_node_t) :
    Nat → Option Nat → List (Nat × Option Nat)
  | 0, _ => []
  | _ + 1, none => []
  | fuel + 1, some a =>
    match heap a with
    | none => []
    | some n => (a, n.task) :: chainFrom heap fuel n.next

/-- The abstract FIFO content of the queue: the task pointers stored
in the chain from `head`, in order. -/
def absQueue (s : QState) : List (Option Nat) :=
  (chainFrom s.heap s.nextAddr s.queue.head).map Prod.snd

/-- A sequence of `enqueue_task` calls, first entry enqueued first. -/
def enqueueAll (s : QState) (ts : List (Option Nat)) : QState :=
  ts.foldl enqueue_task s

/-- `n` successive `dequeue_task` calls, collecting the returned task
pointers (stopping early if a dequeue would block). -/
def dequeueN : QState → Nat → List (Option Nat)
  | _, 0 => []
  | s, n + 1 =>
    match dequeue_task s with
    | none => []
    | some (t, s') => t :: dequeueN s' n

/-- States reachable from `queue_init` by any sequence of
`enqueue_task` and (non-blocking) `dequeue_task` operations. -/
inductive QReach : QState → Prop
  | init : QReach queue_init
  | enq (s : QState) (t : Option Nat) : QReach s → QReach (enqueue_task s t)
  | deq (s s' : QState) (t : Option Nat) :
      QReach s → dequeue_task s = some (t, s') → QReach s'

/-!
Part 3: the worker pool and the shutdown protocol (sudoku.c lines
150-170, 287-295).  Workers operate on the abstract FIFO content (the
queue refinement above justifies this view); queue operations are
serialised by the mutex, so an execution is an interleaving of
single-worker loop iterations.
-/
/-- A worker is Running while inside its `worker_loop`; dequeuing the
NULL sentinel breaks the loop and the worker is Terminated. -/
inductive WStatus where
  | running
  | terminated
deriving DecidableEq

/-- One worker's bookkeeping: its loop status and how many sentinels
it has consumed. -/
structure Worker where
  status : WStatus
  sentinels : Nat
deriving DecidableEq

/-- Pool state: the abstract queue content and the fixed set of
workers. -/
structure PoolState where
  queue : List (Option Nat)
  workers : List Worker
deriving DecidableEq

/-- One `worker_loop` iteration by worker `i` (sudoku.c lines
152-168): the worker dequeues the head entry; a task (`some id`) is
validated, printed and freed and the worker loops (stays Running); the
NULL sentinel breaks the loop, the worker terminates having consumed
exactly this one sentinel.  A Terminated worker performs no further
dequeues (its loop has been left by `break`). -/
inductive PStep : PoolState → PoolState → Prop
  | task (s : PoolState) (i : Nat) (id : Nat) (rest : List (Option Nat))
      (hi : i < s.workers.length)
      (hrun : (s.workers.get ⟨i, hi⟩).status = WStatus.running)
      (hq : s.queue = some id :: rest) :
      PStep s { queue := rest, workers := s.workers }
  | sentinel (s : PoolState) (i : Nat) (rest : List (Option Nat))
      (hi : i < s.workers.length)
      (hrun : (s.workers.get ⟨i, hi⟩).status = WStatus.running)
      (hq : s.queue = none :: rest) :
      PStep s { queue := rest,
                workers := s.workers.set i
                  { status := WStatus.terminated,
                    sentinels := (s.workers.get ⟨i, hi⟩).sentinels + 1 } }

/-- The pool state right after `main` finishes submitting `tasks` and
runs the shutdown loop (sudoku.c lines 269-290): the FIFO holds the
tasks followed by exactly `n` NULL sentinels — one per worker — and
all `n` workers are Running with no sentinel consumed; `main` then
joins every worker (lines 293-295), i.e. waits until no step remains. -/
def shutdownStart (tasks : List Nat) (n : Nat) : PoolState :=
  { queue := tasks.map some ++ List.replicate n none,
    workers := List.replicate n { status := WStatus.running, sentinels := 0 } }

/-- Interleavings of worker steps from a start state. -/
inductive PReach (s0 : PoolState) : PoolState → Prop
  | refl : PReach s0 s0
  | step (s s' : PoolState) : PReach s0 s → PStep s s' → PReach s0 s'

/-- No worker step remains (every worker is done or blocked forever;
`pthread_join` of all workers returns exactly in such states). -/
def stuck (s : PoolState) : Prop := ∀ s', ¬PStep s s'

/-- Pool invariant: `n` workers; sentinels still queued plus workers
already terminated always total `n`; a terminated worker has consumed
exactly one sentinel, a running one none. -/
def PInv (n : Nat) (s : PoolState) : Prop :=
  s.workers.length = n ∧
  s.queue.count none +
    s.workers.countP (fun w => decide (w.status = WStatus.terminated)) = n ∧
  ∀ w ∈ s.workers, (w.status = WStatus.terminated → w.sentinels = 1) ∧
    (w.status = WStatus.running → w.sentinels = 0)

/-!
Part 4: `main`'s submission loop and its fatal-error paths (sudoku.c
lines 269-302).  Input and allocation outcomes are an event oracle:
each submitted board either reads fine, fails to read (line 271, EOF
or input error), fails to allocate its `board_task_t` (line 281), or
fails to allocate its queue node inside `enqueue_task` (line 52).
-/
inductive SubmitEvent where
  | boardOk
  | readFail
  | taskAllocFail
  | nodeAllocFail
deriving DecidableEq

/-- What the process did by the time it left the submission phase. -/
structure SubmitOutcome where
  tasksEnqueued : Nat
  sentinelsEnqueued : Nat
  joinedWorkers : Nat
  exitCode : Nat
deriving DecidableEq

/-- The submission loop of `main` (sudoku.c lines 269-302), one event
per board, `k` boards already enqueued.  All boards read: enqueue one
NULL sentinel per worker, join all workers, exit 0 (lines 287-301).
Read failure: enqueue the sentinels and join the workers, then exit 1
(lines 272-278).  Allocation failure of the task (line 281) or of the
queue node (lines 52-53): `exit(1)` at once — no sentinel is enqueued
and no worker is joined.  The run ends at the first fatal event; no
retry happens. -/
def mainSubmit (workerCount : Nat) : List SubmitEvent → Nat → SubmitOutcome
  | [], k =>
    { tasksEnqueued := k, sentinelsEnqueued := workerCount,
      joinedWorkers := workerCount, exitCode := 0 }
  | SubmitEvent.boardOk :: rest, k => mainSubmit workerCount rest (k + 1)
  | SubmitEvent.readFail :: _, k =>
    { tasksEnqueued := k, sentinelsEnqueued := workerCount,
      joinedWorkers := workerCount, exitCode := 1 }
  | SubmitEvent.taskAllocFail :: _, k =>
    { tasksEnqueued := k, sentinelsEnqueued := 0,
      joinedWorkers := 0, exitCode := 1 }
  | SubmitEvent.nodeAllocFail :: _, k =>
    { tasksEnqueued := k, sentinelsEnqueued := 0,
      joinedWorkers := 0, exitCode := 1 }

/-! Theorems. -/

/-- Unfolding lemma for `scanGo` on a non-empty cell list. -/
theorem scanGo_cons (board : Board) (inv dup : Int → Nat → Nat → String)
    (p : Nat × Nat) (rest : List (Nat × Nat)) (seen : Int → Bool) :
    scanGo board inv dup (p :: rest) seen =
      if board p.1 p.2 ≤ 0 ∨ 9 < board p.1 p.2 then some (inv (board p.1 p.2) p.1 p.2)
      else if seen (board p.1 p.2) then some (dup (board p.1 p.2) p.1 p.2)
      else scanGo board inv dup rest
        (fun x => if x = board p.1 p.2 then true else seen x) := rfl

/-- A group scan passes iff every value it reads lies in `[1, 9]`, none
of them was already in `seen`, and the values are pairwise distinct. -/
theorem scanGo_eq_none_iff (board : Board) (inv dup : Int → Nat → Nat → String) :
    ∀ (cells : List (Nat × Nat)) (seen : Int → Bool),
      scanGo board inv dup cells seen = none ↔
        ((∀ v ∈ cellVals board cells, (1 ≤ v ∧ v ≤ 9) ∧ seen v = false) ∧
          (cellVals board cells).Nodup) := by
  intro cells
  induction cells with
  | nil => intro seen; simp [scanGo, cellVals]
  | cons p rest ih =>
    intro seen
    rw [scanGo_cons]
    by_cases h1 : board p.1 p.2 ≤ 0 ∨ 9 < board p.1 p.2
    · simp only [if_pos h1, cellVals, List.map_cons, List.forall_mem_cons]
      constructor
      · intro h; exact absurd h (by simp)
      · rintro ⟨⟨⟨hr, _⟩, _⟩, _⟩; omega
    · by_cases h2 : seen (board p.1 p.2)
      · simp only [if_neg h1, if_pos h2, cellVals, List.map_cons, List.forall_mem_cons]
        constructor
        · intro h; exact absurd h (by simp)
        · rintro ⟨⟨⟨_, hseen⟩, _⟩, _⟩; rw [h2] at hseen; exact absurd hseen (by simp)
      · rw [if_neg h1, if_neg h2]
        rw [ih]
        have hw9 : 1 ≤ board p.1 p.2 ∧ board p.1 p.2 ≤ 9 := by push_neg at h1; omega
        have h2f : seen (board p.1 p.2) = false := by
          cases hsv : seen (board p.1 p.2)
          · rfl
          · exact absurd hsv h2
        simp only [cellVals, List.map_cons, List.forall_mem_cons, List.nodup_cons]
        constructor
        · rintro ⟨hall, hnd⟩
          have hmem : board p.1 p.2 ∉ List.map (fun q => board q.1 q.2) rest := by
            intro hm
            have hs' : (if board p.1 p.2 = board p.1 p.2 then true else seen (board p.1 p.2))
                = false := (hall _ hm).2
            rw [if_pos rfl] at hs'
            exact absurd hs' (by simp)
          refine ⟨⟨⟨hw9, h2f⟩, ?_⟩, hmem, hnd⟩
          intro v hv
          obtain ⟨hr, hs⟩ := hall v hv
          have hs' : (if v = board p.1 p.2 then true else seen v) = false := hs
          by_cases hx : v = board p.1 p.2
          · rw [if_pos hx] at hs'; exact absurd hs' (by simp)
          · rw [if_neg hx] at hs'; exact ⟨hr, hs'⟩
        · rintro ⟨⟨⟨_, _⟩, hall⟩, hmem, hnd⟩
          refine ⟨?_, hnd⟩
          intro v hv
          obtain ⟨hr, hs⟩ := hall v hv
          have hx : ¬v = board p.1 p.2 := fun he => hmem (he ▸ hv)
          refine ⟨hr, ?_⟩
          show (if v = board p.1 p.2 then true else seen v) = false
          rw [if_neg hx]
          exact hs

/-- A group scan from the empty `seen` array passes iff all values are
in range and pairwise distinct. -/
theorem scanGo_empty_eq_none_iff (board : Board)
    (inv dup : Int → Nat → Nat → String) (cells : List (Nat × Nat)) :
    scanGo board inv dup cells emptySeen = none ↔
      ((∀ v ∈ cellVals board cells, 1 ≤ v ∧ v ≤ 9) ∧
        (cellVals board cells).Nodup) := by
  rw [scanGo_eq_none_iff]
  simp [emptySeen]

theorem mem_oneToNine (k : Int) : k ∈ oneToNine ↔ 1 ≤ k ∧ k ≤ 9 := by
  simp [oneToNine]
  omega

/-- Pigeonhole: a list of nine values contains 1..9 exactly once each
iff all its values lie in `[1, 9]` and are pairwise distinct. -/
theorem groupOk_iff (vals : List Int) (hlen : vals.length = 9) :
    groupOk vals ↔ ((∀ v ∈ vals, 1 ≤ v ∧ v ≤ 9) ∧ vals.Nodup) := by
  constructor
  · intro h
    have hsub : Finset.Icc (1 : Int) 9 ⊆ vals.toFinset := by
      intro k hk
      rw [Finset.mem_Icc] at hk
      rw [List.mem_toFinset]
      have h1 := h k ((mem_oneToNine k).2 hk)
      have h2 : 0 < vals.count k := by omega
      exact List.count_pos_iff.1 h2
    have hsum : ∑ a ∈ vals.toFinset, vals.count a = 9 := by
      rw [List.sum_toFinset_count_eq_length]
      exact hlen
    have hIccSum : ∑ a ∈ Finset.Icc (1 : Int) 9, vals.count a = 9 := by
      rw [Finset.sum_congr rfl
        (fun k hk => h k ((mem_oneToNine k).2 (Finset.mem_Icc.1 hk)))]
      simp [Int.card_Icc]
    have hRange : ∀ v ∈ vals, 1 ≤ v ∧ v ≤ 9 := by
      intro v hv
      by_contra hvr
      have hvT : v ∈ vals.toFinset := List.mem_toFinset.2 hv
      have hvI : v ∉ Finset.Icc (1 : Int) 9 := by rw [Finset.mem_Icc]; exact hvr
      have hlt : ∑ a ∈ Finset.Icc (1 : Int) 9, vals.count a <
          ∑ a ∈ vals.toFinset, vals.count a :=
        Finset.sum_lt_sum_of_subset hsub hvT hvI (List.count_pos_iff.2 hv)
          (fun j _ _ => Nat.zero_le _)
      omega
    refine ⟨hRange, ?_⟩
    rw [List.nodup_iff_count_le_one]
    intro a
    by_cases ha : a ∈ vals
    · have h1 := h a ((mem_oneToNine a).2 (hRange a ha))
      omega
    · rw [List.count_eq_zero_of_not_mem ha]
      omega
  · rintro ⟨hRange, hnd⟩
    intro k hk
    rw [mem_oneToNine] at hk
    have hsub : vals.toFinset ⊆ Finset.Icc (1 : Int) 9 := by
      intro v hv
      rw [List.mem_toFinset] at hv
      rw [Finset.mem_Icc]
      exact hRange v hv
    have hcard : (Finset.Icc (1 : Int) 9).card ≤ vals.toFinset.card := by
      rw [List.toFinset_card_of_nodup hnd, hlen, Int.card_Icc]
      rfl
    have heq := Finset.eq_of_subset_of_card_le hsub hcard
    have hkmem : k ∈ vals := by
      rw [← List.mem_toFinset, heq, Finset.mem_Icc]
      exact hk
    exact List.count_eq_one_of_mem hnd hkmem

theorem rowVals_length (board : Board) (r : Nat) : (rowVals board r).length = 9 := by
  simp [rowVals, cellVals, rowCells]

theorem colVals_length (board : Board) (c : Nat) : (colVals board c).length = 9 := by
  simp [colVals, cellVals, colCells]

theorem blockVals_length (board : Board) (b : Nat) : (blockVals board b).length = 9 := by
  rfl

/-- Row check `r` passes iff row `r` contains 1..9 exactly once. -/
theorem rowScan_eq_none_iff (board : Board) (r : Nat) :
    rowScan board r = none ↔ groupOk (rowVals board r) := by
  rw [rowScan, scanGo_empty_eq_none_iff,
    groupOk_iff (rowVals board r) (rowVals_length board r)]
  exact Iff.rfl

/-- Column check `c` passes iff column `c` contains 1..9 exactly once. -/
theorem colScan_eq_none_iff (board : Board) (c : Nat) :
    colScan board c = none ↔ groupOk (colVals board c) := by
  rw [colScan, scanGo_empty_eq_none_iff,
    groupOk_iff (colVals board c) (colVals_length board c)]
  exact Iff.rfl

/-- Block check `b` passes iff block `b` contains 1..9 exactly once. -/
theorem blockScan_eq_none_iff (board : Board) (b : Nat) :
    blockScan board b = none ↔ groupOk (blockVals board b) := by
  rw [blockScan, scanGo_empty_eq_none_iff,
    groupOk_iff (blockVals board b) (blockVals_length board b)]
  exact Iff.rfl

theorem firstMsg_eq_none_iff :
    ∀ l : List (Option String), firstMsg l = none ↔ ∀ x ∈ l, x = none
  | [] => by simp [firstMsg]
  | some m :: rest => by simp [firstMsg]
  | none :: rest => by simp [firstMsg, firstMsg_eq_none_iff rest]

/-- The row phase passes iff every row contains 1..9 exactly once. -/
theorem rowPhase_eq_none_iff (board : Board) :
    firstMsg ((List.range 9).map (rowScan board)) = none ↔
      ∀ r < 9, groupOk (rowVals board r) := by
  rw [firstMsg_eq_none_iff]
  constructor
  · intro h r hr
    exact (rowScan_eq_none_iff board r).1
      (h _ (List.mem_map.2 ⟨r, List.mem_range.2 hr, rfl⟩))
  · intro h x hx
    obtain ⟨r, hr, rfl⟩ := List.mem_map.1 hx
    exact (rowScan_eq_none_iff board r).2 (h r (List.mem_range.1 hr))

/-- The column phase passes iff every column contains 1..9 exactly once. -/
theorem colPhase_eq_none_iff (board : Board) :
    firstMsg ((List.range 9).map (colScan board)) = none ↔
      ∀ c < 9, groupOk (colVals board c) := by
  rw [firstMsg_eq_none_iff]
  constructor
  · intro h c hc
    exact (colScan_eq_none_iff board c).1
      (h _ (List.mem_map.2 ⟨c, List.mem_range.2 hc, rfl⟩))
  · intro h x hx
    obtain ⟨c, hc, rfl⟩ := List.mem_map.1 hx
    exact (colScan_eq_none_iff board c).2 (h c (List.mem_range.1 hc))

/-- The block phase passes iff every block contains 1..9 exactly once. -/
theorem blockPhase_eq_none_iff (board : Board) :
    firstMsg ((List.range 9).map (blockScan board)) = none ↔
      ∀ b < 9, groupOk (blockVals board b) := by
  rw [firstMsg_eq_none_iff]
  constructor
  · intro h b hb
    exact (blockScan_eq_none_iff board b).1
      (h _ (List.mem_map.2 ⟨b, List.mem_range.2 hb, rfl⟩))
  · intro h x hx
    obtain ⟨b, hb, rfl⟩ := List.mem_map.1 hx
    exact (blockScan_eq_none_iff board b).2 (h b (List.mem_range.1 hb))

/-- C1: `validate_board_internal` returns `true` — and then its reason
is exactly `"OK"` — if and only if each of the 9 rows, each of the 9
columns, and each of the nine non-overlapping 3x3 blocks contains the
values 1 through 9 each exactly once. -/
theorem validate_true_OK_iff_all_groups (board : Board) :
    (validate_board_internal board = (true, "OK") ↔
      ((∀ r < 9, groupOk (rowVals board r)) ∧
        (∀ c < 9, groupOk (colVals board c)) ∧
        (∀ b < 9, groupOk (blockVals board b)))) ∧
    ((validate_board_internal board).1 = true →
      validate_board_internal board = (true, "OK")) := by
  unfold validate_board_internal
  cases h1 : firstMsg ((List.range 9).map (rowScan board)) with
  | some m =>
    refine ⟨⟨fun h => absurd h (by simp), ?_⟩, fun h => absurd h (by simp)⟩
    rintro ⟨hR, -, -⟩
    rw [← rowPhase_eq_none_iff board] at hR
    rw [h1] at hR
    exact absurd hR (by simp)
  | none =>
    cases h2 : firstMsg ((List.range 9).map (colScan board)) with
    | some m =>
      refine ⟨⟨fun h => absurd h (by simp), ?_⟩, fun h => absurd h (by simp)⟩
      rintro ⟨-, hC, -⟩
      rw [← colPhase_eq_none_iff board] at hC
      rw [h2] at hC
      exact absurd hC (by simp)
    | none =>
      cases h3 : firstMsg ((List.range 9).map (blockScan board)) with
      | some m =>
        refine ⟨⟨fun h => absurd h (by simp), ?_⟩, fun h => absurd h (by simp)⟩
        rintro ⟨-, -, hB⟩
        rw [← blockPhase_eq_none_iff board] at hB
        rw [h3] at hB
        exact absurd hB (by simp)
      | none =>
        refine ⟨⟨fun _ => ?_, fun _ => rfl⟩, fun _ => rfl⟩
        exact ⟨(rowPhase_eq_none_iff board).1 h1, (colPhase_eq_none_iff board).1 h2,
          (blockPhase_eq_none_iff board).1 h3⟩

/-- The incremental `seen`-array scan of the C code computes exactly
the spec's earliest-violation description. -/
theorem scanGo_eq_specScan (board : Board) (inv dup : Int → Nat → Nat → String) :
    ∀ (cells : List (Nat × Nat)) (acc : List Int),
      scanGo board inv dup cells (fun v => decide (v ∈ acc)) =
        specScan board inv dup cells acc := by
  intro cells
  induction cells with
  | nil => intro acc; rfl
  | cons p rest ih =>
    intro acc
    rw [scanGo_cons]
    have hlen : (p :: rest).length = rest.length + 1 := rfl
    have hp0 : (p :: rest).getD 0 (0, 0) = p := rfl
    have hf0 : specFault board (p :: rest) acc 0 =
        (decide (board p.1 p.2 ≤ 0 ∨ 9 < board p.1 p.2) ||
          decide (board p.1 p.2 ∈ acc)) := by
      simp [specFault, cellVals]
    by_cases h1 : board p.1 p.2 ≤ 0 ∨ 9 < board p.1 p.2
    · rw [if_pos h1]
      rw [specScan, hlen, List.range_succ_eq_map,
        List.find?_cons_of_pos _ (by rw [hf0, decide_eq_true h1, Bool.true_or]),
        Option.map_some']
      rw [specMsgAt, hp0]
      simp only [if_pos h1]
    · by_cases h2 : board p.1 p.2 ∈ acc
      · rw [if_neg h1, if_pos (decide_eq_true h2)]
        rw [specScan, hlen, List.range_succ_eq_map,
          List.find?_cons_of_pos _ (by rw [hf0, decide_eq_true h2, Bool.or_true]),
          Option.map_some']
        rw [specMsgAt, hp0]
        simp only [if_neg h1]
      · rw [if_neg h1, if_neg (by simpa using h2)]
        have hupd : (fun x => if x = board p.1 p.2 then true
            else decide (x ∈ acc)) =
            (fun x => decide (x ∈ board p.1 p.2 :: acc)) := by
          funext x
          by_cases hx : x = board p.1 p.2 <;> simp [hx]
        rw [hupd, ih (board p.1 p.2 :: acc)]
        rw [specScan, specScan, hlen, List.range_succ_eq_map,
          List.find?_cons_of_neg _ (by rw [hf0, decide_eq_false h1,
            decide_eq_false h2, Bool.or_false]; exact Bool.false_ne_true)]
        have hshift : (specFault board (p :: rest) acc) ∘ Nat.succ =
            specFault board rest (board p.1 p.2 :: acc) := by
          funext i
          simp only [Function.comp, specFault, List.getD_cons_succ, List.take_succ_cons,
            cellVals, List.map_cons]
          congr 1
          apply decide_eq_decide.2
          constructor
          · intro hm
            rcases List.mem_append.1 hm with hA | hB
            · exact List.mem_append.2 (Or.inl (List.mem_cons_of_mem _ hA))
            · rcases List.mem_cons.1 hB with hv | hC
              · exact List.mem_append.2 (Or.inl (hv ▸ List.mem_cons_self _ _))
              · exact List.mem_append.2 (Or.inr hC)
          · intro hm
            rcases List.mem_append.1 hm with hA | hB
            · rcases List.mem_cons.1 hA with hv | hC
              · exact List.mem_append.2 (Or.inr (hv ▸ List.mem_cons_self _ _))
              · exact List.mem_append.2 (Or.inl hC)
            · exact List.mem_append.2 (Or.inr (List.mem_cons_of_mem _ hB))
        rw [List.find?_map, hshift, Option.map_map]
        have hmsg : specMsgAt board inv dup (p :: rest) ∘ Nat.succ =
            specMsgAt board inv dup rest := by
          funext i
          simp [specMsgAt, List.getD_cons_succ, Function.comp]
        rw [hmsg]

theorem emptySeen_eq_decide_nil :
    emptySeen = (fun v => decide (v ∈ ([] : List Int))) := by
  funext v
  simp [emptySeen]

/-- C2: the validator realises the spec's first-violation description:
on every board (so in particular on every invalid board, where both
sides return `false`) it returns exactly the verdict and reason of the
deterministic scan order rows-then-columns-then-blocks, earliest group
first, earliest position within the group first, the reason naming the
offending value and the 1-based index of the offending row, column, or
block. -/
theorem validate_eq_spec_validate (board : Board) :
    validate_board_internal board = spec_validate board := by
  have hrow : rowScan board =
      fun r => specScan board invalidNumMsg rowDupMsg (rowCells r) [] := by
    funext r
    rw [rowScan, emptySeen_eq_decide_nil, scanGo_eq_specScan]
  have hcol : colScan board =
      fun c => specScan board invalidNumMsg colDupMsg (colCells c) [] := by
    funext c
    rw [colScan, emptySeen_eq_decide_nil, scanGo_eq_specScan]
  have hblk : blockScan board =
      fun b => specScan board (blockInvalidMsg b) (blockDupMsg b)
        (blockCells b) [] := by
    funext b
    rw [blockScan, emptySeen_eq_decide_nil, scanGo_eq_specScan]
  unfold validate_board_internal spec_validate
  rw [hrow, hcol, hblk]

/-!
Helper lemmas about the phase structure of the validator, shared by the
fault-reporting claims.
-/
theorem firstMsg_some_mem :
    ∀ {l : List (Option String)} {m : String}, firstMsg l = some m → some m ∈ l := by
  intro l
  induction l with
  | nil => intro m h; exact absurd h (by simp [firstMsg])
  | cons x rest ih =>
    intro m h
    cases x with
    | some y =>
      rw [firstMsg] at h
      rw [h]
      exact List.mem_cons_self _ _
    | none => exact List.mem_cons_of_mem _ (ih h)

theorem firstMsg_map_range :
    ∀ (n : Nat) (f : Nat → Option String) (k : Nat) (m : String),
      k < n → (∀ i < k, f i = none) → f k = some m →
      firstMsg ((List.range n).map f) = some m := by
  intro n
  induction n with
  | zero => intro f k m hk; omega
  | succ n ih =>
    intro f k m hk hnone hsome
    rw [List.range_succ_eq_map, List.map_cons, List.map_map]
    cases k with
    | zero => rw [hsome]; rfl
    | succ j =>
      rw [hnone 0 (Nat.succ_pos j)]
      exact ih (f ∘ Nat.succ) j m (by omega)
        (fun i hi => hnone (i + 1) (by omega)) hsome

/-- The validator returns `true` exactly when all three phases pass. -/
theorem validate_fst_true_iff (board : Board) :
    (validate_board_internal board).1 = true ↔
      (firstMsg ((List.range 9).map (rowScan board)) = none ∧
        firstMsg ((List.range 9).map (colScan board)) = none ∧
        firstMsg ((List.range 9).map (blockScan board)) = none) := by
  unfold validate_board_internal
  cases h1 : firstMsg ((List.range 9).map (rowScan board)) with
  | some m => simp
  | none =>
    cases h2 : firstMsg ((List.range 9).map (colScan board)) with
    | some m => simp
    | none =>
      cases h3 : firstMsg ((List.range 9).map (blockScan board)) with
      | some m => simp
      | none => simp

/-- A fault found in the row phase is the validator's verdict. -/
theorem validate_of_rowPhase_some (board : Board) (m : String)
    (h : firstMsg ((List.range 9).map (rowScan board)) = some m) :
    validate_board_internal board = (false, m) := by
  unfold validate_board_internal
  rw [h]

/-- A fault found in the column phase, when all rows pass, is the
validator's verdict. -/
theorem validate_of_colPhase_some (board : Board) (m : String)
    (h1 : firstMsg ((List.range 9).map (rowScan board)) = none)
    (h2 : firstMsg ((List.range 9).map (colScan board)) = some m) :
    validate_board_internal board = (false, m) := by
  unfold validate_board_internal
  rw [h1, h2]

/-- A fault found in the block phase, when all rows and columns pass,
is the validator's verdict. -/
theorem validate_of_blockPhase_some (board : Board) (m : String)
    (h1 : firstMsg ((List.range 9).map (rowScan board)) = none)
    (h2 : firstMsg ((List.range 9).map (colScan board)) = none)
    (h3 : firstMsg ((List.range 9).map (blockScan board)) = some m) :
    validate_board_internal board = (false, m) := by
  unfold validate_board_internal
  rw [h1, h2, h3]

/-- If the full row phase passes, every one of the 81 cells holds a
value in `[1, 9]`. -/
theorem rowPhase_none_all_inRange (board : Board)
    (h : firstMsg ((List.range 9).map (rowScan board)) = none) :
    ∀ r < 9, ∀ c < 9, 1 ≤ board r c ∧ board r c ≤ 9 := by
  intro r hr c hc
  have hsc : rowScan board r = none :=
    (firstMsg_eq_none_iff _).1 h _ (List.mem_map.2 ⟨r, List.mem_range.2 hr, rfl⟩)
  rw [rowScan, scanGo_empty_eq_none_iff] at hsc
  exact hsc.1 _ (List.mem_map.2 ⟨(r, c),
    List.mem_map.2 ⟨c, List.mem_range.2 hc, rfl⟩, rfl⟩)

/-- When every value a scan reads is in range, the scan's
out-of-range branch is dead: the scan passes or reports a duplicate. -/
theorem scanGo_all_inRange (board : Board) (inv dup : Int → Nat → Nat → String) :
    ∀ (cells : List (Nat × Nat)) (seen : Int → Bool),
      (∀ v ∈ cellVals board cells, 1 ≤ v ∧ v ≤ 9) →
      scanGo board inv dup cells seen = none ∨
        ∃ p ∈ cells, scanGo board inv dup cells seen =
          some (dup (board p.1 p.2) p.1 p.2) := by
  intro cells
  induction cells with
  | nil => intro seen _; exact Or.inl rfl
  | cons p rest ih =>
    intro seen hin
    have hp : 1 ≤ board p.1 p.2 ∧ board p.1 p.2 ≤ 9 :=
      hin _ (List.mem_map.2 ⟨p, List.mem_cons_self _ _, rfl⟩)
    have h1 : ¬(board p.1 p.2 ≤ 0 ∨ 9 < board p.1 p.2) := by omega
    rw [scanGo_cons, if_neg h1]
    by_cases h2 : seen (board p.1 p.2)
    · rw [if_pos h2]
      exact Or.inr ⟨p, List.mem_cons_self _ _, rfl⟩
    · rw [if_neg h2]
      have hin' : ∀ v ∈ cellVals board rest, 1 ≤ v ∧ v ≤ 9 := by
        intro v hv
        exact hin v (by
          rcases List.mem_map.1 hv with ⟨q, hq, rfl⟩
          exact List.mem_map.2 ⟨q, List.mem_cons_of_mem _ hq, rfl⟩)
      rcases ih _ hin' with hnone | ⟨q, hq, hsome⟩
      · exact Or.inl hnone
      · exact Or.inr ⟨q, List.mem_cons_of_mem _ hq, hsome⟩

theorem mem_blockCells {b : Nat} {p : Nat × Nat} (hp : p ∈ blockCells b) :
    ∃ i < 3, ∃ j < 3, p = (b / 3 * 3 + i, b % 3 * 3 + j) := by
  simp only [blockCells, List.mem_flatten, List.mem_map] at hp
  obtain ⟨L, ⟨i, hi, rfl⟩, hpL⟩ := hp
  obtain ⟨j, hj, rfl⟩ := List.mem_map.1 hpL
  exact ⟨i, List.mem_range.1 hi, j, List.mem_range.1 hj, rfl⟩

/-- C10: if the row scan completes without returning, every one of the
81 cells holds a value in `[1, 9]`; consequently the out-of-range
("Invalid number") branches of the column scan and the block scan are
dead — each later check either passes or reports a duplicate message
(`colDupMsg` / `blockDupMsg`, which ignore their coordinate
arguments). -/
theorem rowPhase_pass_dead_invalid_branches (board : Board)
    (h : firstMsg ((List.range 9).map (rowScan board)) = none) :
    (∀ r < 9, ∀ c < 9, 1 ≤ board r c ∧ board r c ≤ 9) ∧
    (∀ c < 9, colScan board c = none ∨
      ∃ v : Int, colScan board c = some (colDupMsg v 0 c)) ∧
    (∀ b < 9, blockScan board b = none ∨
      ∃ v : Int, blockScan board b = some (blockDupMsg b v 0 0)) := by
  have hall := rowPhase_none_all_inRange board h
  refine ⟨hall, ?_, ?_⟩
  · intro c hc
    have hin : ∀ v ∈ cellVals board (colCells c), 1 ≤ v ∧ v ≤ 9 := by
      intro v hv
      obtain ⟨p, hp, rfl⟩ := List.mem_map.1 hv
      obtain ⟨i, hi, rfl⟩ := List.mem_map.1 hp
      exact hall i (List.mem_range.1 hi) c hc
    rcases scanGo_all_inRange board invalidNumMsg colDupMsg (colCells c)
        emptySeen hin with hnone | ⟨p, hp, hsome⟩
    · exact Or.inl hnone
    · obtain ⟨i, hi, rfl⟩ := List.mem_map.1 hp
      exact Or.inr ⟨board i c, hsome⟩
  · intro b hb
    have hin : ∀ v ∈ cellVals board (blockCells b), 1 ≤ v ∧ v ≤ 9 := by
      intro v hv
      obtain ⟨p, hp, rfl⟩ := List.mem_map.1 hv
      obtain ⟨i, hi, j, hj, rfl⟩ := mem_blockCells hp
      exact hall _ (by omega) _ (by omega)
    rcases scanGo_all_inRange board (blockInvalidMsg b) (blockDupMsg b)
        (blockCells b) emptySeen hin with hnone | ⟨p, hp, hsome⟩
    · exact Or.inl hnone
    · exact Or.inr ⟨board p.1 p.2, hsome⟩

/-- Witness for the dead-branch theorem at a concrete board whose rows
all pass. -/
theorem rowPhase_pass_dead_invalid_branches_witness :
    (∀ r < 9, ∀ c < 9, 1 ≤ stripeBoard r c ∧ stripeBoard r c ≤ 9) ∧
    (∀ c < 9, colScan stripeBoard c = none ∨
      ∃ v : Int, colScan stripeBoard c = some (colDupMsg v 0 c)) ∧
    (∀ b < 9, blockScan stripeBoard b = none ∨
      ∃ v : Int, blockScan stripeBoard b = some (blockDupMsg b v 0 0)) :=
  rowPhase_pass_dead_invalid_branches stripeBoard (by rfl)

theorem rowCells_getD (r c : Nat) (hc : c < 9) :
    (rowCells r).getD c (0, 0) = (r, c) := by
  rw [rowCells]
  rw [List.getD_eq_getElem _ _ (by simpa using hc)]
  rw [List.getElem_map, List.getElem_range]

/-- C3: an out-of-range value makes the board invalid; when such a
cell is the first fault in scan order (all earlier rows pass and it is
the earliest violation of its own row), the reason is the
"Invalid number" message at that cell's 1-based row and column, never a
duplicate message; a board with an out-of-range value (in particular a
zero) anywhere is always reported invalid. -/
theorem invalid_number_first_fault (board : Board) (r c : Nat)
    (hr : r < 9) (hc : c < 9)
    (hprev : ∀ r' < r, rowScan board r' = none)
    (hfirst : (List.range (rowCells r).length).find?
      (specFault board (rowCells r) []) = some c)
    (hout : board r c ≤ 0 ∨ 9 < board r c) :
    validate_board_internal board = (false, invalidNumMsg (board r c) r c) ∧
    (∀ b : Board, (∃ i < 9, ∃ j < 9, b i j ≤ 0 ∨ 9 < b i j) →
      (validate_board_internal b).1 = false) ∧
    (∀ b : Board, (∃ i < 9, ∃ j < 9, b i j = 0) →
      (validate_board_internal b).1 = false) := by
  have hOut : ∀ b : Board, (∃ i < 9, ∃ j < 9, b i j ≤ 0 ∨ 9 < b i j) →
      (validate_board_internal b).1 = false := by
    rintro b ⟨i, hi, j, hj, hbad⟩
    cases hfst : (validate_board_internal b).1 with
    | false => rfl
    | true =>
      have hrows := ((validate_fst_true_iff b).1 hfst).1
      have := rowPhase_none_all_inRange b hrows i hi j hj
      omega
  refine ⟨?_, hOut, ?_⟩
  · have hscan : rowScan board r = some (invalidNumMsg (board r c) r c) := by
      rw [rowScan, emptySeen_eq_decide_nil, scanGo_eq_specScan, specScan, hfirst,
        Option.map_some']
      rw [specMsgAt, rowCells_getD r c hc]
      simp only [if_pos hout]
    exact validate_of_rowPhase_some board _
      (firstMsg_map_range 9 (rowScan board) r _ hr hprev hscan)
  · rintro b ⟨i, hi, j, hj, hzero⟩
    exact hOut b ⟨i, hi, j, hj, Or.inl (by omega)⟩

/-- Witness: the zero at cell (1,1) (1-based) of `zeroBoard` is the
first fault in scan order and is reported as an invalid number there. -/
theorem invalid_number_first_fault_witness :
    validate_board_internal zeroBoard = (false, invalidNumMsg (zeroBoard 0 0) 0 0) ∧
    (∀ b : Board, (∃ i < 9, ∃ j < 9, b i j ≤ 0 ∨ 9 < b i j) →
      (validate_board_internal b).1 = false) ∧
    (∀ b : Board, (∃ i < 9, ∃ j < 9, b i j = 0) →
      (validate_board_internal b).1 = false) :=
  invalid_number_first_fault zeroBoard 0 0 (by decide) (by decide)
    (fun r' h => absurd h (Nat.not_lt_zero r')) (by decide) (by decide)

theorem rowVals_eq_map (board : Board) (r : Nat) :
    rowVals board r = (List.range 9).map (fun c => board r c) := rfl

theorem colVals_eq_map (board : Board) (c : Nat) :
    colVals board c = (List.range 9).map (fun i => board i c) := rfl

/-- Mapping a function that swaps the images of two list members is a
permutation of mapping the original function. -/
theorem map_swap_perm (f g : Nat → Int) (l : List Nat) (hnd : l.Nodup)
    (c1 c2 : Nat) (h1 : c1 ∈ l) (h2 : c2 ∈ l) (hne : c1 ≠ c2)
    (hg1 : g c1 = f c2) (hg2 : g c2 = f c1)
    (hgx : ∀ x ∈ l, x ≠ c1 → x ≠ c2 → g x = f x) :
    (l.map g).Perm (l.map f) := by
  have hl1 : l.Perm (c1 :: l.erase c1) := List.perm_cons_erase h1
  have h2' : c2 ∈ l.erase c1 :=
    (List.Nodup.mem_erase_iff hnd).2 ⟨Ne.symm hne, h2⟩
  have hl2 : (l.erase c1).Perm (c2 :: (l.erase c1).erase c2) :=
    List.perm_cons_erase h2'
  have hll : l.Perm (c1 :: c2 :: (l.erase c1).erase c2) :=
    hl1.trans (hl2.cons c1)
  have hmem : ∀ x ∈ (l.erase c1).erase c2, x ∈ l ∧ x ≠ c1 ∧ x ≠ c2 := by
    intro x hx
    have hx2 := (List.Nodup.mem_erase_iff (hnd.erase c1)).1 hx
    have hx1 := (List.Nodup.mem_erase_iff hnd).1 hx2.2
    exact ⟨hx1.2, hx1.1, hx2.1⟩
  have e1 : (c1 :: c2 :: (l.erase c1).erase c2).map g =
      f c2 :: f c1 :: ((l.erase c1).erase c2).map f := by
    simp only [List.map_cons, hg1, hg2]
    have : ((l.erase c1).erase c2).map g = ((l.erase c1).erase c2).map f :=
      List.map_congr_left (fun x hx =>
        hgx x (hmem x hx).1 (hmem x hx).2.1 (hmem x hx).2.2)
    rw [this]
  have hgl := hll.map g
  rw [e1] at hgl
  have hfl := hll.map f
  have hswap : (f c2 :: f c1 :: ((l.erase c1).erase c2).map f).Perm
      (f c1 :: f c2 :: ((l.erase c1).erase c2).map f) :=
    List.Perm.swap (f c1) (f c2) _
  exact hgl.trans (hswap.trans hfl.symm)

/-- Distinct positions of a duplicate-free `map f (range n)` carry
distinct values. -/
theorem nodup_map_range_ne {f : Nat → Int} {n : Nat}
    (h : ((List.range n).map f).Nodup) {i j : Nat}
    (hi : i < n) (hj : j < n) (hij : i ≠ j) : f i ≠ f j := by
  intro hf
  have hlen : ((List.range n).map f).length = n := by simp
  have hinj := List.nodup_iff_injective_get.1 h
  have hgi : ((List.range n).map f).get ⟨i, by omega⟩ = f i := by
    simp [List.get_map, List.get_range]
  have hgj : ((List.range n).map f).get ⟨j, by omega⟩ = f j := by
    simp [List.get_map, List.get_range]
  have heq : ((List.range n).map f).get ⟨i, by omega⟩ =
      ((List.range n).map f).get ⟨j, by omega⟩ := by
    rw [hgi, hgj, hf]
  have hfin := hinj heq
  exact hij (by simpa using congrArg Fin.val hfin)

/-- C4 (amended): swapping the contents of two distinct cells within
one row of a fully valid board leaves every row valid (the row is
merely permuted), so the validator finds the created duplicate in the
column scan: it returns `false` with a column-duplicate reason naming
the duplicated value and the 1-based index of the offending column. -/
theorem swap_in_row_reports_column_duplicate (board : Board) (r c1 c2 : Nat)
    (hr : r < 9) (hc1 : c1 < 9) (hc2 : c2 < 9) (hne : c1 ≠ c2)
    (hvalid : validate_board_internal board = (true, "OK")) :
    ∃ k < 9, ∃ v : Int,
      validate_board_internal (swapCells board r c1 c2) =
        (false, colDupMsg v 0 k) := by
  set board' := swapCells board r c1 c2 with hb'
  have hfst : (validate_board_internal board).1 = true := by rw [hvalid]
  obtain ⟨hrowP, hcolP, -⟩ := (validate_fst_true_iff board).1 hfst
  have hrowN : ∀ i < 9, rowScan board i = none := fun i hi =>
    (firstMsg_eq_none_iff _).1 hrowP _ (List.mem_map.2 ⟨i, List.mem_range.2 hi, rfl⟩)
  have hcolN : ∀ j < 9, colScan board j = none := fun j hj =>
    (firstMsg_eq_none_iff _).1 hcolP _ (List.mem_map.2 ⟨j, List.mem_range.2 hj, rfl⟩)
  have hall := rowPhase_none_all_inRange board hrowP
  have hg1 : board' r c1 = board r c2 := by simp [hb', swapCells]
  have hg2 : board' r c2 = board r c1 := by simp [hb', swapCells, Ne.symm hne]
  have hgx : ∀ i j : Nat, ¬(i = r ∧ j = c1) → ¬(i = r ∧ j = c2) →
      board' i j = board i j := by
    intro i j hA hB
    simp only [hb', swapCells, if_neg hA, if_neg hB]
  have hrowN' : ∀ i < 9, rowScan board' i = none := by
    intro i hi
    rcases eq_or_ne i r with rfl | hir
    · have hperm : ((List.range 9).map (fun j => board' i j)).Perm
          ((List.range 9).map (fun j => board i j)) := by
        apply map_swap_perm _ _ _ (List.nodup_range 9) c1 c2
          (List.mem_range.2 hc1) (List.mem_range.2 hc2) hne hg1 hg2
        intro x _ hx1 hx2
        exact hgx i x (fun h => hx1 h.2) (fun h => hx2 h.2)
      rw [rowScan_eq_none_iff]
      have horig := (rowScan_eq_none_iff board i).1 (hrowN i hi)
      intro k hk
      rw [rowVals_eq_map, hperm.count_eq, ← rowVals_eq_map]
      exact horig k hk
    · rw [rowScan_eq_none_iff]
      have horig := (rowScan_eq_none_iff board i).1 (hrowN i hi)
      have hvals : rowVals board' i = rowVals board i := by
        rw [rowVals_eq_map, rowVals_eq_map]
        exact List.map_congr_left
          (fun x _ => hgx i x (fun h => hir h.1) (fun h => hir h.1))
      rw [hvals]
      exact horig
  have hrowP' : firstMsg ((List.range 9).map (rowScan board')) = none := by
    rw [firstMsg_eq_none_iff]
    intro x hx
    obtain ⟨i, hi, rfl⟩ := List.mem_map.1 hx
    exact hrowN' i (List.mem_range.1 hi)
  have hall' := rowPhase_none_all_inRange board' hrowP'
  have hrowOk := (groupOk_iff _ (rowVals_length board r)).1
    ((rowScan_eq_none_iff board r).1 (hrowN r hr))
  have hv12 : board r c1 ≠ board r c2 := by
    have hnd : ((List.range 9).map (fun j => board r j)).Nodup := by
      rw [← rowVals_eq_map]
      exact hrowOk.2
    exact nodup_map_range_ne hnd hc1 hc2 hne
  have hv2mem : board r c2 ∈ colVals board c1 := by
    have hv2r : 1 ≤ board r c2 ∧ board r c2 ≤ 9 := hall r hr c2 hc2
    have hcnt := ((colScan_eq_none_iff board c1).1 (hcolN c1 hc1))
      (board r c2) ((mem_oneToNine _).2 hv2r)
    have hpos : 0 < (colVals board c1).count (board r c2) := by omega
    exact List.count_pos_iff.1 hpos
  have hv2mem' : board r c2 ∈ (List.range 9).map (fun i => board i c1) := by
    rw [← colVals_eq_map]
    exact hv2mem
  obtain ⟨i0, hi0mem, hi0val⟩ := List.mem_map.1 hv2mem'
  have hi0 : i0 < 9 := List.mem_range.1 hi0mem
  have hi0r : i0 ≠ r := fun h => hv12 (h ▸ hi0val)
  have hdup : ¬((List.range 9).map (fun i => board' i c1)).Nodup := by
    intro hnd
    apply nodup_map_range_ne hnd hr hi0 (Ne.symm hi0r)
    rw [hg1, hgx i0 c1 (fun h => hi0r h.1) (fun h => hne h.2)]
    exact hi0val.symm
  have hcolBad : colScan board' c1 ≠ none := by
    intro hcn
    rw [colScan, scanGo_empty_eq_none_iff] at hcn
    apply hdup
    have hnd2 : (colVals board' c1).Nodup := hcn.2
    rw [colVals_eq_map] at hnd2
    exact hnd2
  have hcolPhase : firstMsg ((List.range 9).map (colScan board')) ≠ none := by
    intro hn
    exact hcolBad ((firstMsg_eq_none_iff _).1 hn _
      (List.mem_map.2 ⟨c1, List.mem_range.2 hc1, rfl⟩))
  obtain ⟨m, hm⟩ := Option.ne_none_iff_exists.1 hcolPhase
  have hmem := firstMsg_some_mem hm.symm
  obtain ⟨k, hk, hkeq⟩ := List.mem_map.1 hmem
  have hkin : ∀ v ∈ cellVals board' (colCells k), 1 ≤ v ∧ v ≤ 9 := by
    intro v hv
    obtain ⟨p, hp, rfl⟩ := List.mem_map.1 hv
    obtain ⟨i, hi, rfl⟩ := List.mem_map.1 hp
    exact hall' i (List.mem_range.1 hi) k (List.mem_range.1 hk)
  rcases scanGo_all_inRange board' invalidNumMsg colDupMsg (colCells k)
      emptySeen hkin with hnone | ⟨p, hp, hsome⟩
  · have hkn : colScan board' k = none := hnone
    rw [hkn] at hkeq
    exact absurd hkeq (by simp)
  · obtain ⟨i, hi, rfl⟩ := List.mem_map.1 hp
    refine ⟨k, List.mem_range.1 hk, board' i k, ?_⟩
    have hform : colScan board' k = some (colDupMsg (board' i k) 0 k) := hsome
    have hmeq : m = colDupMsg (board' i k) 0 k :=
      Option.some.inj (hkeq.symm.trans hform)
    rw [← hmeq]
    exact validate_of_colPhase_some board' m hrowP' hm.symm

/-- C4 counterexample: swapping cells (1,1) and (1,2) (1-based) of the
canonical solved board swaps 5 and 3 inside row 1; the validator
reports `"Duplicate 3 in column 1"` — a column-duplicate reason, not a
reason naming the swapped row's 1-based index. -/
theorem swap_in_row_counterexample :
    validate_board_internal solvedBoard = (true, "OK") ∧
    swapCells solvedBoard 0 0 1 0 0 = solvedBoard 0 1 ∧
    swapCells solvedBoard 0 0 1 0 1 = solvedBoard 0 0 ∧
    validate_board_internal (swapCells solvedBoard 0 0 1) =
      (false, colDupMsg 3 0 0) ∧
    colDupMsg 3 0 0 = "Duplicate 3 in column 1" ∧
    validate_board_internal (swapCells solvedBoard 0 0 1) ≠
      (false, rowDupMsg 3 0 0) ∧
    rowDupMsg 3 0 0 = "Duplicate 3 in row 1" := by
  refine ⟨rfl, rfl, rfl, rfl, rfl, by decide, rfl⟩

/-- Witness for the amended claim at the canonical solved board with
cells (1,1) and (1,2) of row 1 swapped. -/
theorem swap_in_row_reports_column_duplicate_witness :
    ∃ k < 9, ∃ v : Int,
      validate_board_internal (swapCells solvedBoard 0 0 1) =
        (false, colDupMsg v 0 k) :=
  swap_in_row_reports_column_duplicate solvedBoard 0 0 1 (by decide)
    (by decide) (by decide) (by decide) (by rfl)

/-- C5: on a board whose rows and columns all contain 1..9 exactly
once but where block `b` (0-based row-major; all earlier blocks clean)
contains a duplicate, the validator returns `false` with the
block-duplicate reason naming that block's 1-based index. -/
theorem block_duplicate_reported (board : Board) (b : Nat) (hb : b < 9)
    (hrows : ∀ r < 9, groupOk (rowVals board r))
    (hcols : ∀ c < 9, groupOk (colVals board c))
    (hprev : ∀ b' < b, groupOk (blockVals board b'))
    (hbad : ¬groupOk (blockVals board b)) :
    ∃ v : Int, validate_board_internal board = (false, blockDupMsg b v 0 0) := by
  have hrowP : firstMsg ((List.range 9).map (rowScan board)) = none :=
    (rowPhase_eq_none_iff board).2 hrows
  have hcolP : firstMsg ((List.range 9).map (colScan board)) = none :=
    (colPhase_eq_none_iff board).2 hcols
  have hall := rowPhase_none_all_inRange board hrowP
  have hbscan : blockScan board b ≠ none := by
    intro hn
    exact hbad ((blockScan_eq_none_iff board b).1 hn)
  obtain ⟨m, hm⟩ := Option.ne_none_iff_exists.1 hbscan
  have hphase : firstMsg ((List.range 9).map (blockScan board)) = some m :=
    firstMsg_map_range 9 (blockScan board) b m hb
      (fun b' hb' => (blockScan_eq_none_iff board b').2 (hprev b' hb')) hm.symm
  have hin : ∀ v ∈ cellVals board (blockCells b), 1 ≤ v ∧ v ≤ 9 := by
    intro v hv
    obtain ⟨p, hp, rfl⟩ := List.mem_map.1 hv
    obtain ⟨i, hi, j, hj, rfl⟩ := mem_blockCells hp
    exact hall _ (by omega) _ (by omega)
  rcases scanGo_all_inRange board (blockInvalidMsg b) (blockDupMsg b)
      (blockCells b) emptySeen hin with hnone | ⟨p, hp, hsome⟩
  · have hbn : blockScan board b = none := hnone
    rw [hbn] at hm
    exact absurd hm (by simp)
  · have hform : blockScan board b = some (blockDupMsg b (board p.1 p.2) 0 0) := hsome
    have hmeq : m = blockDupMsg b (board p.1 p.2) 0 0 :=
      Option.some.inj (hm.trans hform)
    refine ⟨board p.1 p.2, ?_⟩
    rw [← hmeq]
    exact validate_of_blockPhase_some board m hrowP hcolP hphase

/-- Witness: on the shifted Latin square the first block (top-left) is
the offending block and the validator names block 1. -/
theorem block_duplicate_reported_witness :
    ∃ v : Int, validate_board_internal shiftBoard = (false, blockDupMsg 0 v 0 0) :=
  block_duplicate_reported shiftBoard 0 (by decide) (by decide) (by decide)
    (fun b' h => absurd h (Nat.not_lt_zero b')) (by decide)

theorem nodeChain_nil_inv {heap : Nat → Option task_node_t} {p : Option Nat}
    (h : NodeChain heap p []) : p = none := by
  cases h
  rfl

theorem nodeChain_mono (heap heap' : Nat → Option task_node_t) :
    ∀ (p : Option Nat) (l : List (Nat × Option Nat)),
      NodeChain heap p l →
      (∀ a ∈ l.map Prod.fst, heap' a = heap a) →
      NodeChain heap' p l := by
  intro p l h
  induction h with
  | nil => intro _; exact NodeChain.nil
  | cons a n l' ha _hrest ih =>
    intro hagree
    refine NodeChain.cons a n l' ?_ (ih ?_)
    · rw [hagree a (by simp)]
      exact ha
    · intro x hx
      exact hagree x (by simp only [List.map_cons, List.mem_cons]; exact Or.inr hx)

/-- Appending a freshly allocated node behind the tail extends the
chain by one entry (the heart of the non-empty `enqueue_task` case). -/
theorem nodeChain_snoc (heap heap' : Nat → Option task_node_t)
    (t : Option Nat) (a ta : Nat) :
    ∀ (p : Option Nat) (l : List (Nat × Option Nat)),
      NodeChain heap p l →
      (l.map Prod.fst).getLast? = some ta →
      (l.map Prod.fst).Nodup →
      a ∉ l.map Prod.fst →
      (∀ x ∈ l.map Prod.fst, x ≠ ta → heap' x = heap x) →
      (∀ n, heap ta = some n → heap' ta = some { n with next := some a }) →
      heap' a = some { task := t, next := none } →
      NodeChain heap' p (l ++ [(a, t)]) := by
  intro p l h
  induction h with
  | nil => intro hlast; exact absurd hlast (by simp)
  | cons b n l' hb hrest ih =>
    intro hlast hnd hna hagree hta hha
    cases l' with
    | nil =>
      have hnext : n.next = none := nodeChain_nil_inv hrest
      have hbta : b = ta := by
        simp only [List.map_cons, List.map_nil] at hlast
        simpa using hlast
      refine NodeChain.cons b { n with next := some a } [(a, t)] ?_ ?_
      · rw [hbta]
        exact hta n (hbta ▸ hb)
      · exact NodeChain.cons a { task := t, next := none } [] hha NodeChain.nil
    | cons q l'' =>
      have hlast' : ((q :: l'').map Prod.fst).getLast? = some ta := by
        simp only [List.map_cons] at hlast ⊢
        rw [List.getLast?_cons_cons] at hlast
        exact hlast
      have htamem : ta ∈ (q :: l'').map Prod.fst :=
        List.mem_of_mem_getLast? hlast'
      have hbne : b ≠ ta := by
        intro hbe
        have : b ∉ (q :: l'').map Prod.fst := (List.nodup_cons.1 hnd).1
        exact this (hbe ▸ htamem)
      refine NodeChain.cons b n _ ?_ ?_
      · rw [hagree b (by simp) hbne]
        exact hb
      · exact ih hlast' (List.nodup_cons.1 hnd).2
          (fun hm => hna (List.mem_cons_of_mem _ hm))
          (fun x hx hxta => hagree x (List.mem_cons_of_mem _ hx) hxta)
          hta hha

theorem nodup_lt_length_le (xs : List Nat) (n : Nat)
    (hnd : xs.Nodup) (hlt : ∀ x ∈ xs, x < n) : xs.length ≤ n := by
  have hsub : xs.toFinset ⊆ Finset.range n := by
    intro x hx
    rw [List.mem_toFinset] at hx
    rw [Finset.mem_range]
    exact hlt x hx
  have hcard := Finset.card_le_card hsub
  rw [List.toFinset_card_of_nodup hnd, Finset.card_range] at hcard
  exact hcard

theorem chainFrom_succ_some (heap : Nat → Option task_node_t) (fuel : Nat) (a : Nat) :
    chainFrom heap (fuel + 1) (some a) =
      match heap a with
      | none => []
      | some n => (a, n.task) :: chainFrom heap fuel n.next := rfl

/-- With enough fuel, the executable walk recovers the chain. -/
theorem chainFrom_eq (heap : Nat → Option task_node_t)
    {p : Option Nat} {l : List (Nat × Option Nat)}
    (h : NodeChain heap p l) :
    ∀ fuel, l.length ≤ fuel → chainFrom heap fuel p = l := by
  induction h with
  | nil =>
    intro fuel _
    cases fuel with
    | zero => rfl
    | succ f => rfl
  | cons a n l' ha _hrest ih =>
    intro fuel hf
    cases fuel with
    | zero => simp at hf
    | succ f =>
      rw [chainFrom_succ_some, ha]
      show (a, n.task) :: chainFrom heap f n.next = (a, n.task) :: l'
      rw [ih f (by simp at hf; omega)]

/-- Under the shape facts of `QInv`, the abstract queue content is the
chain's task list. -/
theorem absQueue_eq (s : QState) {l : List (Nat × Option Nat)}
    (hch : NodeChain s.heap s.queue.head l)
    (hnd : (l.map Prod.fst).Nodup)
    (hbd : ∀ a ∈ l.map Prod.fst, a < s.nextAddr) :
    absQueue s = l.map Prod.snd := by
  have hlen : l.length ≤ s.nextAddr := by
    have := nodup_lt_length_le (l.map Prod.fst) s.nextAddr hnd hbd
    simpa using this
  rw [absQueue, chainFrom_eq s.heap hch s.nextAddr hlen]

/-- `enqueue_task` preserves the queue invariant and appends its entry
at the abstract tail. -/
theorem enqueue_task_spec (s : QState) (t : Option Nat) (h : QInv s) :
    QInv (enqueue_task s t) ∧ absQueue (enqueue_task s t) = absQueue s ++ [t] := by
  obtain ⟨l, hch, htl, hnd, hbd⟩ := h
  have habs := absQueue_eq s hch hnd hbd
  have hna : s.nextAddr ∉ l.map Prod.fst := fun hmem => absurd (hbd _ hmem) (by omega)
  cases htail : s.queue.tail with
  | none =>
    have hl : l = [] := by
      rw [htail] at htl
      have := List.getLast?_eq_none_iff.1 htl.symm
      cases l with
      | nil => rfl
      | cons q l' => simp at this
    subst hl
    have henq : enqueue_task s t =
        { queue := { head := some s.nextAddr, tail := some s.nextAddr },
          heap := fun x => if x = s.nextAddr
            then some { task := t, next := none } else s.heap x,
          nextAddr := s.nextAddr + 1 } := by
      simp only [enqueue_task, htail]
    have hch' : NodeChain (enqueue_task s t).heap (enqueue_task s t).queue.head
        [(s.nextAddr, t)] := by
      rw [henq]
      exact NodeChain.cons s.nextAddr { task := t, next := none } []
        (by simp) NodeChain.nil
    have hnd' : ([(s.nextAddr, t)].map Prod.fst).Nodup := by simp
    have hbd' : ∀ a ∈ [(s.nextAddr, t)].map Prod.fst, a < (enqueue_task s t).nextAddr := by
      rw [henq]
      simp
    refine ⟨⟨[(s.nextAddr, t)], hch', ?_, hnd', hbd'⟩, ?_⟩
    · rw [henq]
      rfl
    · rw [absQueue_eq _ hch' hnd' hbd', habs]
      simp
  | some ta =>
    have hlast : (l.map Prod.fst).getLast? = some ta := by
      rw [htail] at htl
      exact htl.symm
    have htam : ta ∈ l.map Prod.fst := List.mem_of_mem_getLast? hlast
    have htaa : ta ≠ s.nextAddr := fun he => absurd (hbd ta htam) (by omega)
    have henq : enqueue_task s t =
        { queue := { head := s.queue.head, tail := some s.nextAddr },
          heap := fun x =>
            if x = ta then
              ((fun y => if y = s.nextAddr
                  then some { task := t, next := none } else s.heap y) ta).map
                (fun n => { n with next := some s.nextAddr })
            else if x = s.nextAddr
              then some { task := t, next := none } else s.heap x,
          nextAddr := s.nextAddr + 1 } := by
      simp only [enqueue_task, htail]
    have hheap' : (enqueue_task s t).heap = fun x =>
        if x = ta then (s.heap ta).map (fun n => { n with next := some s.nextAddr })
        else if x = s.nextAddr then some { task := t, next := none } else s.heap x := by
      rw [henq]
      funext x
      by_cases hx : x = ta
      · simp [hx, htaa]
      · simp [hx]
    have hch' : NodeChain (enqueue_task s t).heap (enqueue_task s t).queue.head
        (l ++ [(s.nextAddr, t)]) := by
      have hhead : (enqueue_task s t).queue.head = s.queue.head := by rw [henq]
      rw [hhead, hheap']
      refine nodeChain_snoc s.heap _ t s.nextAddr ta s.queue.head l hch hlast hnd hna
        ?_ ?_ ?_
      · intro x hx hxta
        have hxa : x ≠ s.nextAddr := fun he => absurd (hbd x hx) (by omega)
        simp [hxta, hxa]
      · intro n hn
        simp [hn]
      · simp [Ne.symm htaa]
    have hnd' : ((l ++ [(s.nextAddr, t)]).map Prod.fst).Nodup := by
      rw [List.map_append]
      simp only [List.map_cons, List.map_nil]
      rw [List.nodup_append]
      exact ⟨hnd, by simp, by simpa using fun hm => hna hm⟩
    have hbd' : ∀ a ∈ (l ++ [(s.nextAddr, t)]).map Prod.fst,
        a < (enqueue_task s t).nextAddr := by
      have hN : (enqueue_task s t).nextAddr = s.nextAddr + 1 := by rw [henq]
      rw [hN, List.map_append]
      intro a ha
      rcases List.mem_append.1 ha with hin | hin
      · have := hbd a hin
        omega
      · simp at hin
        omega
    refine ⟨⟨l ++ [(s.nextAddr, t)], hch', ?_, hnd', hbd'⟩, ?_⟩
    · rw [henq, List.map_append]
      simp only [List.map_cons, List.map_nil]
      rw [List.getLast?_concat]
    · rw [absQueue_eq _ hch' hnd' hbd', habs, List.map_append]
      simp

/-- `dequeue_task` blocks exactly on the abstractly empty queue and
otherwise removes and returns the abstract head, preserving the
invariant. -/
theorem dequeue_task_spec (s : QState) (h : QInv s) :
    (absQueue s = [] → dequeue_task s = none) ∧
    (∀ t rest, absQueue s = t :: rest →
      ∃ s', dequeue_task s = some (t, s') ∧ QInv s' ∧ absQueue s' = rest) := by
  obtain ⟨l, hch, htl, hnd, hbd⟩ := h
  have habs := absQueue_eq s hch hnd hbd
  cases hh : s.queue.head with
  | none =>
    rw [hh] at hch
    have hl : l = [] := by cases hch; rfl
    subst hl
    constructor
    · intro _
      simp only [dequeue_task, hh]
    · intro t rest habs1
      rw [habs] at habs1
      exact absurd habs1 (by simp)
  | some a =>
    rw [hh] at hch
    obtain ⟨n, l', ha, hrest, hl⟩ : ∃ n l', s.heap a = some n ∧
        NodeChain s.heap n.next l' ∧ l = (a, n.task) :: l' := by
      cases hch with
      | cons a n l' ha hrest => exact ⟨n, l', ha, hrest, rfl⟩
    subst hl
    have hnd' : (l'.map Prod.fst).Nodup := (List.nodup_cons.1 hnd).2
    have hamem : a ∉ l'.map Prod.fst := (List.nodup_cons.1 hnd).1
    have hdq : dequeue_task s = some (n.task,
        { queue := { head := n.next,
                     tail := if n.next = none then none else s.queue.tail },
          heap := fun x => if x = a then none else s.heap x,
          nextAddr := s.nextAddr }) := by
      simp only [dequeue_task, hh, ha]
    constructor
    · intro habs0
      exact absurd (habs.symm.trans habs0) (by simp)
    · intro t rest habs1
      obtain ⟨ht, hrest'⟩ : n.task = t ∧ l'.map Prod.snd = rest := by
        have h2 := habs.symm.trans habs1
        simp only [List.map_cons] at h2
        injection h2 with hA hB
        exact ⟨hA, hB⟩
      refine ⟨_, by rw [hdq, ht], ?_, ?_⟩
      · refine ⟨l', ?_, ?_, hnd', ?_⟩
        · exact nodeChain_mono s.heap _ n.next l' hrest
            (fun x hx => by
              have hxa : x ≠ a := fun he => hamem (he ▸ hx)
              simp [hxa])
        · cases hnx : n.next with
          | none =>
            rw [hnx] at hrest
            have hl' : l' = [] := by cases hrest; rfl
            subst hl'
            simp
          | some b =>
            rw [hnx] at hrest
            obtain ⟨m, l'', -, -, hl''⟩ : ∃ m l'', s.heap b = some m ∧
                NodeChain s.heap m.next l'' ∧ l' = (b, m.task) :: l'' := by
              cases hrest with
              | cons b m l'' hb hr => exact ⟨m, l'', hb, hr, rfl⟩
            have hne : n.next ≠ none := by rw [hnx]; exact Option.some_ne_none b
            simp only [if_neg hne]
            rw [htl, hl'']
            simp only [List.map_cons]
            rw [List.getLast?_cons_cons]
            simp
        · intro x hx
          exact hbd x (List.mem_cons_of_mem _ hx)
      · rw [← hrest']
        apply absQueue_eq
        · exact nodeChain_mono s.heap _ n.next l' hrest
            (fun x hx => by
              have hxa : x ≠ a := fun he => hamem (he ▸ hx)
              simp [hxa])
        · exact hnd'
        · intro x hx
          exact hbd x (List.mem_cons_of_mem _ hx)

theorem queue_init_inv : QInv queue_init :=
  ⟨[], NodeChain.nil, rfl, List.nodup_nil, fun a ha => absurd ha (List.not_mem_nil a)⟩

theorem absQueue_init : absQueue queue_init = [] := rfl

theorem enqueueAll_spec :
    ∀ (ts : List (Option Nat)) (s : QState), QInv s →
      QInv (enqueueAll s ts) ∧ absQueue (enqueueAll s ts) = absQueue s ++ ts := by
  intro ts
  induction ts with
  | nil => intro s hs; exact ⟨hs, by simp [enqueueAll]⟩
  | cons t ts ih =>
    intro s hs
    obtain ⟨h1, h2⟩ := enqueue_task_spec s t hs
    obtain ⟨h3, h4⟩ := ih (enqueue_task s t) h1
    refine ⟨h3, ?_⟩
    have he : enqueueAll s (t :: ts) = enqueueAll (enqueue_task s t) ts := rfl
    rw [he, h4, h2]
    simp

theorem dequeueN_all :
    ∀ (n : Nat) (s : QState), QInv s → (absQueue s).length = n →
      dequeueN s n = absQueue s := by
  intro n
  induction n with
  | zero =>
    intro s _ hlen
    have : absQueue s = [] := List.length_eq_zero.1 hlen
    rw [this]
    rfl
  | succ n ih =>
    intro s hs hlen
    cases habs : absQueue s with
    | nil => rw [habs] at hlen; simp at hlen
    | cons t rest =>
      obtain ⟨s', hdq, hinv', habs'⟩ := (dequeue_task_spec s hs).2 t rest habs
      have hrl : (absQueue s').length = n := by
        rw [habs']
        rw [habs] at hlen
        simpa using hlen
      show (match dequeue_task s with
        | none => []
        | some (t, s') => t :: dequeueN s' n) = t :: rest
      rw [hdq]
      show t :: dequeueN s' n = t :: rest
      rw [ih s' hinv' hrl, habs']

/-- C6: the linked-list queue refines a FIFO list.  Starting from
`queue_init`, enqueueing the entries `ts` (task pointers, NULL
sentinels included) makes the abstract queue content exactly `ts`, and
`ts.length` successive dequeues return exactly those entries in
enqueue order — nothing dropped, duplicated, or reordered; moreover
each single `enqueue_task` appends its entry and each single
`dequeue_task` removes and returns the oldest entry. -/
theorem queue_fifo_refinement (ts : List (Option Nat)) :
    absQueue (enqueueAll queue_init ts) = ts ∧
    dequeueN (enqueueAll queue_init ts) ts.length = ts ∧
    (∀ s t, QInv s → absQueue (enqueue_task s t) = absQueue s ++ [t]) ∧
    (∀ s t rest, QInv s → absQueue s = t :: rest →
      ∃ s', dequeue_task s = some (t, s') ∧ absQueue s' = rest) := by
  obtain ⟨hinv, habs⟩ := enqueueAll_spec ts queue_init queue_init_inv
  rw [absQueue_init] at habs
  simp only [List.nil_append] at habs
  refine ⟨habs, ?_, ?_, ?_⟩
  · have := dequeueN_all ts.length (enqueueAll queue_init ts) hinv (by rw [habs])
    rw [habs] at this
    exact this
  · intro s t hs
    exact (enqueue_task_spec s t hs).2
  · intro s t rest hs h
    obtain ⟨s', h1, _h2, h3⟩ := (dequeue_task_spec s hs).2 t rest h
    exact ⟨s', h1, h3⟩

theorem qinv_of_reach : ∀ s : QState, QReach s → QInv s := by
  intro s h
  induction h with
  | init => exact queue_init_inv
  | enq s t _hr ih => exact (enqueue_task_spec s t ih).1
  | deq s s' t _hr hdq ih =>
    cases habs : absQueue s with
    | nil =>
      have := (dequeue_task_spec s ih).1 habs
      rw [this] at hdq
      exact absurd hdq (by simp)
    | cons u rest =>
      obtain ⟨s'', h1, h2, -⟩ := (dequeue_task_spec s ih).2 u rest habs
      rw [h1] at hdq
      have : u = t ∧ s'' = s' := by
        injection hdq with hx
        injection hx with hu hs
        exact ⟨hu, hs⟩
      rw [← this.2]
      exact h2

/-- C9: in every state reachable from `queue_init` by `enqueue_task`
and `dequeue_task` steps, `head` is NULL exactly when `tail` is NULL;
each single operation preserves this. -/
theorem head_none_iff_tail_none (s : QState) (h : QReach s) :
    s.queue.head = none ↔ s.queue.tail = none := by
  obtain ⟨l, hch, htl, -, -⟩ := qinv_of_reach s h
  cases hh : s.queue.head with
  | none =>
    rw [hh] at hch
    have hl : l = [] := by cases hch; rfl
    subst hl
    rw [htl]
    simp
  | some a =>
    rw [hh] at hch
    obtain ⟨n, l', ha, hrest, hl⟩ : ∃ n l', s.heap a = some n ∧
        NodeChain s.heap n.next l' ∧ l = (a, n.task) :: l' := by
      cases hch with
      | cons a n l' ha hrest => exact ⟨n, l', ha, hrest, rfl⟩
    subst hl
    rw [htl]
    simp

/-- Witness: the invariant at a concrete reachable state with one
entry enqueued and then dequeued. -/
theorem head_none_iff_tail_none_witness :
    ((enqueue_task queue_init (some 1)).queue.head = none ↔
      (enqueue_task queue_init (some 1)).queue.tail = none) ∧
    (queue_init.queue.head = none ↔ queue_init.queue.tail = none) :=
  ⟨head_none_iff_tail_none _ (QReach.enq queue_init (some 1) QReach.init),
    head_none_iff_tail_none _ QReach.init⟩

theorem countP_lt_length_of_mem {α : Type} (p : α → Bool) :
    ∀ (l : List α) (x : α), x ∈ l → p x = false → l.countP p < l.length := by
  intro l
  induction l with
  | nil => intro x hx _; exact absurd hx (List.not_mem_nil x)
  | cons y l ih =>
    intro x hx hp
    rw [List.countP_cons, List.length_cons]
    rcases List.mem_cons.1 hx with rfl | hx'
    · rw [hp, if_neg (by decide : ¬(false = true))]
      have := List.countP_le_length p (l := l)
      omega
    · have hlt := ih x hx' hp
      by_cases hy : p y = true
      · rw [if_pos hy]
        omega
      · rw [if_neg hy]
        omega

/-- Setting a position whose element fails `p` to one satisfying `p`
raises the `countP` by one. -/
theorem countP_set_succ (p : Worker → Bool) :
    ∀ (l : List Worker) (i : Nat) (hi : i < l.length) (x : Worker),
      p x = true → p (l.get ⟨i, hi⟩) = false →
      (l.set i x).countP p = l.countP p + 1 := by
  intro l
  induction l with
  | nil => intro i hi; simp at hi
  | cons y l ih =>
    intro i hi x hpx hpy
    cases i with
    | zero =>
      rw [List.set_cons_zero, List.countP_cons, List.countP_cons, hpx]
      have hpy0 : p y = false := hpy
      rw [hpy0]
      simp
    | succ j =>
      rw [List.set_cons_succ, List.countP_cons, List.countP_cons]
      have hj : j < l.length := by simpa using hi
      have hpyj : p (l.get ⟨j, hj⟩) = false := hpy
      rw [ih j hj x hpx hpyj]
      omega

theorem shutdownStart_inv (tasks : List Nat) (n : Nat) :
    PInv n (shutdownStart tasks n) := by
  refine ⟨by simp [shutdownStart], ?_, ?_⟩
  · show (tasks.map some ++ List.replicate n none).count none +
      (List.replicate n ({ status := WStatus.running, sentinels := 0 } : Worker)).countP
        (fun w => decide (w.status = WStatus.terminated)) = n
    rw [List.count_append]
    have h1 : (tasks.map some).count (none : Option Nat) = 0 := by
      apply List.count_eq_zero_of_not_mem
      intro hm
      obtain ⟨x, -, hx⟩ := List.mem_map.1 hm
      exact absurd hx (by simp)
    have h2 : (List.replicate n (none : Option Nat)).count none = n :=
      List.count_replicate_self _ _
    have h3 : (List.replicate n
        ({ status := WStatus.running, sentinels := 0 } : Worker)).countP
        (fun w => decide (w.status = WStatus.terminated)) = 0 := by
      rw [List.countP_eq_zero]
      intro w hw
      rw [List.eq_of_mem_replicate hw]
      decide
    rw [h1, h2, h3]
    omega
  · intro w hw
    have hwe := List.eq_of_mem_replicate
      (show w ∈ List.replicate n ({ status := WStatus.running, sentinels := 0 } : Worker)
        from hw)
    rw [hwe]
    exact ⟨fun h => absurd h (by decide), fun _ => rfl⟩

theorem pstep_inv (n : Nat) (s s' : PoolState)
    (hinv : PInv n s) (hst : PStep s s') : PInv n s' := by
  obtain ⟨hlen, hcnt, hcons⟩ := hinv
  cases hst with
  | task i id rest hi hrun hq =>
    refine ⟨hlen, ?_, hcons⟩
    rw [hq, List.count_cons] at hcnt
    simp at hcnt
    exact hcnt
  | sentinel i rest hi hrun hq =>
    refine ⟨?_, ?_, ?_⟩
    · show (s.workers.set i _).length = n
      rw [List.length_set]
      exact hlen
    · show rest.count none + (s.workers.set i
        { status := WStatus.terminated,
          sentinels := (s.workers.get ⟨i, hi⟩).sentinels + 1 }).countP
        (fun w => decide (w.status = WStatus.terminated)) = n
      rw [countP_set_succ _ s.workers i hi
        { status := WStatus.terminated,
          sentinels := (s.workers.get ⟨i, hi⟩).sentinels + 1 }
        rfl (by rw [hrun]; decide)]
      rw [hq, List.count_cons] at hcnt
      simp at hcnt
      omega
    · intro w hw
      rcases List.mem_or_eq_of_mem_set hw with hw' | rfl
      · exact hcons w hw'
      · refine ⟨fun _ => ?_, fun h => by simp at h⟩
        have hold := hcons (s.workers.get ⟨i, hi⟩) (s.workers.get_mem i hi)
        show (s.workers.get ⟨i, hi⟩).sentinels + 1 = 1
        rw [hold.2 hrun]

theorem preach_inv (tasks : List Nat) (n : Nat) (s : PoolState)
    (h : PReach (shutdownStart tasks n) s) : PInv n s := by
  induction h with
  | refl => exact shutdownStart_inv tasks n
  | step s1 s2 _hr hst ih => exact pstep_inv n s1 s2 ih hst

/-- C7: the shutdown protocol.  The start state (after `main`'s loops)
holds exactly `n` NULL sentinels, queued after all tasks.  In every
interleaving of worker steps: no worker ever consumes more than one
sentinel; a Terminated worker consumed exactly one; and when no step
remains (the state `pthread_join` of all workers waits for), all `n`
workers are Terminated, each having consumed exactly one sentinel —
a worker's loop ends at its first sentinel and performs no further
dequeues. -/
theorem pool_shutdown_exactly_once (tasks : List Nat) (n : Nat) (s : PoolState)
    (h : PReach (shutdownStart tasks n) s) :
    (shutdownStart tasks n).queue.count none = n ∧
    (∀ w ∈ s.workers, w.sentinels ≤ 1) ∧
    (∀ w ∈ s.workers, w.status = WStatus.terminated → w.sentinels = 1) ∧
    (stuck s → s.workers.length = n ∧
      ∀ w ∈ s.workers, w.status = WStatus.terminated ∧ w.sentinels = 1) := by
  obtain ⟨hlen, hcnt, hcons⟩ := preach_inv tasks n s h
  have hstart : (shutdownStart tasks n).queue.count none = n := by
    show (tasks.map some ++ List.replicate n none).count none = n
    rw [List.count_append]
    have h1 : (tasks.map some).count (none : Option Nat) = 0 := by
      apply List.count_eq_zero_of_not_mem
      intro hm
      obtain ⟨x, -, hx⟩ := List.mem_map.1 hm
      exact absurd hx (by simp)
    rw [h1, List.count_replicate_self]
    omega
  refine ⟨hstart, ?_, fun w hw => (hcons w hw).1, ?_⟩
  · intro w hw
    cases hws : w.status with
    | running => rw [(hcons w hw).2 hws]; omega
    | terminated => rw [(hcons w hw).1 hws]
  · intro hstuck
    refine ⟨hlen, ?_⟩
    have hterm : ∀ w ∈ s.workers, w.status = WStatus.terminated := by
      by_contra hnot
      push_neg at hnot
      obtain ⟨w, hw, hwne⟩ := hnot
      have hwrun : w.status = WStatus.running := by
        cases hws : w.status with
        | running => rfl
        | terminated => exact absurd hws hwne
      obtain ⟨⟨i, hi⟩, hgi⟩ := List.mem_iff_get.1 hw
      have hlt : s.workers.countP
          (fun w => decide (w.status = WStatus.terminated)) < s.workers.length :=
        countP_lt_length_of_mem _ s.workers w hw (by rw [hwrun]; decide)
      rw [hlen] at hlt
      have hq1 : 0 < s.queue.count none := by omega
      cases hq : s.queue with
      | nil =>
        rw [hq] at hq1
        simp at hq1
      | cons e rest =>
        cases e with
        | none =>
          exact hstuck _ (PStep.sentinel s i rest hi (by rw [hgi]; exact hwrun) hq)
        | some id =>
          exact hstuck _ (PStep.task s i id rest hi (by rw [hgi]; exact hwrun) hq)
    intro w hw
    exact ⟨hterm w hw, (hcons w hw).1 (hterm w hw)⟩

/-- Witness: the shutdown theorem at the concrete start state with one
task and two workers. -/
theorem pool_shutdown_exactly_once_witness :
    (shutdownStart [7] 2).queue.count none = 2 ∧
    (∀ w ∈ (shutdownStart [7] 2).workers, w.sentinels ≤ 1) ∧
    (∀ w ∈ (shutdownStart [7] 2).workers,
      w.status = WStatus.terminated → w.sentinels = 1) ∧
    (stuck (shutdownStart [7] 2) → (shutdownStart [7] 2).workers.length = 2 ∧
      ∀ w ∈ (shutdownStart [7] 2).workers,
        w.status = WStatus.terminated ∧ w.sentinels = 1) :=
  pool_shutdown_exactly_once [7] 2 (shutdownStart [7] 2) PReach.refl

/-- C8 (code bug): on an input failure the run terminates and first
performs the shutdown protocol (4 sentinels, 4 joins for 4 workers),
but on an allocation failure of a task or of a queue node the process
exits immediately with no sentinel enqueued and no worker joined —
contradicting the claim (and section 7 of the spec) that every fatal
submission error still performs the shutdown protocol before exit. -/
theorem submission_fatal_alloc_skips_shutdown :
    (mainSubmit 4 [SubmitEvent.readFail] 0).sentinelsEnqueued = 4 ∧
    (mainSubmit 4 [SubmitEvent.readFail] 0).joinedWorkers = 4 ∧
    (mainSubmit 4 [SubmitEvent.readFail] 0).exitCode = 1 ∧
    (mainSubmit 4 [SubmitEvent.taskAllocFail] 0).sentinelsEnqueued = 0 ∧
    (mainSubmit 4 [SubmitEvent.taskAllocFail] 0).joinedWorkers = 0 ∧
    (mainSubmit 4 [SubmitEvent.taskAllocFail] 0).exitCode = 1 ∧
    (mainSubmit 4 [SubmitEvent.nodeAllocFail] 0).sentinelsEnqueued = 0 ∧
    (mainSubmit 4 [SubmitEvent.nodeAllocFail] 0).joinedWorkers = 0 := by
  decide
